import Mathlib

/-!
# Verification of the wormhole-calculator POMCTS core

A shallow embedding of the POMCTS planner of the `wormhole-calculator`
repository (src/pomcts/observation.ts, node.ts, algorithm.ts, results.ts,
together with config.ts and actions.ts), with proofs about the embedded
definitions.

Modelling conventions:
* JavaScript numbers are modelled as rationals (`ℚ`); all the numeric
  literals of the source (0.9, 0.95, 0.10, 0.50, the ship masses) are exact
  decimal fractions, so `ℚ` represents them exactly.
* The repository carries two snapshots of `CONFIG`.  `node.ts` reads
  `CONFIG.maxReasonableTrips`, which only the snapshot with the round ship
  masses (300 / 200 / 134 / 30 / 1.5) defines, and `algorithm.ts` reads
  `CONFIG.tripDecay`, which only the other snapshot defines (as 0.95, the
  value the spec lists).  The embedded `CONFIG` is the union of the two:
  the round ship masses with `maxReasonableTrips = 8` and
  `tripDecay = 0.95`.
* Mutation of node statistics is modelled by rebuilding the tree
  functionally; the two-level child index `children[actionKey][observation]`
  is modelled as a flat association list keyed by the
  (action key, observation) pair, preserving insertion order (the spec's §9
  notes this collapse is equivalent).
* `Math.random()` is modelled by an explicit list of samples in [0, 1], one
  per iteration; the UCB1 selection (which uses transcendental `ln`/`sqrt`)
  is abstracted by an arbitrary index-choosing function `sel`, so every
  theorem quantified over `sel` covers the concrete UCB1 argmax as one
  instance.  The selection/expansion walk gets an explicit fuel parameter;
  every actual execution is a run with sufficiently large fuel (the first
  iteration of any run expands at depth one, so small fuel suffices for the
  concrete runs below).
-/

namespace Wormhole

/-- Observation type: the four visual wormhole states (src/types.ts). -/
inductive Observation where
  | fresh
  | shrink
  | crit
  | collapsed
deriving DecidableEq, Repr, Inhabited

/-- Belief interval over total wormhole mass (src/types.ts `Belief`). -/
structure Belief where
  min : ℚ
  max : ℚ
deriving DecidableEq, Repr, Inhabited

/-- Round-trip action descriptor (src/types.ts `Action`). -/
structure Action where
  out : ℚ
  back : ℚ
  label : String
  isHic : Bool
deriving DecidableEq, Repr, Inhabited

/-- CONFIG.shrinkThreshold (config.ts). -/
def shrinkThreshold : ℚ := 0.50

/-- CONFIG.critThreshold (config.ts). -/
def critThreshold : ℚ := 0.10

/-- CONFIG.maxReasonableTrips (config.ts). -/
def maxReasonableTrips : ℚ := 8

/-- CONFIG.maxDepth (config.ts). -/
def maxDepth : ℕ := 20

/-- CONFIG.tripDecay (config.ts; the spec's `trip_decay = 0.95`). -/
def tripDecay : ℚ := 0.95

/-- The round-trip action catalog (src/actions.ts `ACTIONS`), in catalog
order, with the ship masses of the `CONFIG` snapshot that defines
`maxReasonableTrips`: bsHot = 300, bsCold = 200, hicHot = 134,
hicCold = 30, hicEnt = 1.5. -/
def ACTIONS : List (String × Action) :=
  [ ("BS_HOT", ⟨300, 300, "BS H/H", false⟩)
  , ("BS_COLD", ⟨200, 200, "BS C/C", false⟩)
  , ("BS_COLD_HOT", ⟨200, 300, "BS C/H", false⟩)
  , ("HIC_HOT", ⟨134, 134, "HIC H/H", true⟩)
  , ("HIC_COLD", ⟨30, 30, "HIC C/C", true⟩)
  , ("HIC_COLD_HOT", ⟨30, 134, "HIC C/H", true⟩)
  , ("HIC_ENT", ⟨1.5, 1.5, "HIC E/E", true⟩)
  , ("HIC_ENT_HOT", ⟨1.5, 134, "HIC E/H", true⟩) ]

/-- `computeObservation` (src/pomcts/observation.ts).  The percentage is
computed before the branch on `remaining ≤ 0`, exactly as in the source;
it is only consulted in the later branches. -/
def computeObservation (trueMass massUsed : ℚ) : Observation :=
  let remaining := trueMass - massUsed
  let remainingPct := remaining / trueMass
  if remaining ≤ 0 then .collapsed
  else if remainingPct ≤ critThreshold then .crit
  else if remainingPct ≤ shrinkThreshold then .shrink
  else .fresh

/-- `updateTotalBelief` (src/pomcts/observation.ts).  The source initializes
`newMin`/`newMax` from the current belief and narrows them per observation;
the `collapsed` branch changes nothing.  A fresh `{min, max}` record is
returned in every case. -/
def updateTotalBelief (currentTotalBelief : Belief) (massUsed : ℚ)
    (observation : Observation) : Belief :=
  match observation with
  | .fresh =>
      ⟨max currentTotalBelief.min (2 * massUsed + 1), currentTotalBelief.max⟩
  | .shrink =>
      ⟨max currentTotalBelief.min (massUsed / 0.9 + 1),
       min currentTotalBelief.max (2 * massUsed)⟩
  | .crit =>
      ⟨currentTotalBelief.min, min currentTotalBelief.max (massUsed / 0.9)⟩
  | .collapsed =>
      ⟨currentTotalBelief.min, currentTotalBelief.max⟩

/-- `getRemainingBelief` (src/pomcts/node.ts). -/
def getRemainingBelief (totalBelief : Belief) (massUsed : ℚ) : Belief :=
  ⟨max 0 (totalBelief.min - massUsed), max 0 (totalBelief.max - massUsed)⟩

/-- `isTerminal` (src/pomcts/node.ts). -/
def isTerminal (totalBelief : Belief) (massUsed : ℚ) : Bool :=
  decide ((getRemainingBelief totalBelief massUsed).max ≤ 0)

/-- `getValidActions` (src/pomcts/node.ts).  Keeps an action when some
possible world survives the outbound (`remaining.max > out`) AND it is
either trip-efficient (`out + back ≥ remaining.max / maxReasonableTrips`)
or guaranteed safe while no efficient action is guaranteed safe. -/
def getValidActions (totalBelief : Belief) (massUsed : ℚ) :
    List (String × Action) :=
  let remaining := getRemainingBelief totalBelief massUsed
  let minMassPerTrip := remaining.max / maxReasonableTrips
  let hasEfficientSafeAction := ACTIONS.any fun ka =>
    decide (ka.2.out + ka.2.back ≥ minMassPerTrip) &&
    decide (ka.2.out < remaining.min) &&
    decide (remaining.max > ka.2.out)
  ACTIONS.filter fun ka =>
    if remaining.max ≤ ka.2.out then false
    else
      decide (ka.2.out + ka.2.back ≥ minMassPerTrip) ||
      (decide (ka.2.out < remaining.min) && !hasEfficientSafeAction)

/-- The mutable per-node state of `POMCTSNode` (src/pomcts/node.ts).
The `parent` back-reference is omitted: the source only uses it for
diagnostics (spec §9), never in the planner.  NOTE: the source constructor
initializes `visits = 0` and `wins = 0` but never declares or initializes
`successes`, although `algorithm.ts` increments it and `results.ts` reads
it; it is modelled here with the evidently intended initial value 0 (see
the C2 theorem and its discussion). -/
structure NodeData where
  totalBelief : Belief
  massUsed : ℚ
  incomingActionKey : Option String
  incomingAction : Option Action
  incomingObservation : Option Observation
  visits : ℕ
  wins : ℚ
  successes : ℕ
  depth : ℕ
  terminalTrips : List (ℕ × ℕ)
deriving DecidableEq, Repr, Inhabited

/-- The search tree.  The source's two-level child index
`children[actionKey][observation]` is modelled as a flat association list
keyed by the (action key, observation) pair, in insertion order. -/
inductive PTree where
  | node (data : NodeData) (children : List ((String × Observation) × PTree)) :
      PTree

instance : Inhabited PTree := ⟨.node default []⟩

/-- The data stored at the root of a subtree. -/
def dataOf : PTree → NodeData
  | .node d _ => d

/-- The children of the root of a subtree. -/
def childrenOf : PTree → List ((String × Observation) × PTree)
  | .node _ ch => ch

/-- `getChild` (src/pomcts/node.ts) on the flat child index. -/
def getChild : List ((String × Observation) × PTree) → String → Observation →
    Option PTree
  | [], _, _ => none
  | (ko, c) :: rest, key, observation =>
      if ko = (key, observation) then some c else getChild rest key observation

/-- `setChild` (src/pomcts/node.ts) on the flat child index: replace the
entry for the (key, observation) pair if present, else append. -/
def setChild : List ((String × Observation) × PTree) → String → Observation →
    PTree → List ((String × Observation) × PTree)
  | [], key, observation, c => [((key, observation), c)]
  | (ko, c0) :: rest, key, observation, c =>
      if ko = (key, observation) then ((key, observation), c) :: rest
      else (ko, c0) :: setChild rest key observation c

/-- Key lookup in the action catalog (`ACTIONS[key]` in the source). -/
def lookupAction : List (String × Action) → String → Option Action
  | [], _ => none
  | (k, a) :: rest, key => if k = key then some a else lookupAction rest key

/-- The node constructor for a freshly expanded child
(src/pomcts/algorithm.ts lines 100-113 together with the `POMCTSNode`
constructor). -/
def freshChildData (d : NodeData) (newMassUsed : ℚ) (key : String)
    (observation : Observation) : NodeData where
  totalBelief := updateTotalBelief d.totalBelief newMassUsed observation
  massUsed := newMassUsed
  incomingActionKey := some key
  incomingAction := lookupAction ACTIONS key
  incomingObservation := some observation
  visits := 0
  wins := 0
  successes := 0
  depth := d.depth + 1
  terminalTrips := []

/-- One backpropagation update of a node's statistics
(src/pomcts/algorithm.ts lines 159-166): `visits++` always; on success
`wins += tripDecay ^ trips`, `successes++` and the terminal-trips histogram
bucket for `trips` is bumped. -/
def bumpHist : List (ℕ × ℕ) → ℕ → List (ℕ × ℕ)
  | [], trips => [(trips, 1)]
  | (t, c) :: rest, trips =>
      if t = trips then (t, c + 1) :: rest else (t, c) :: bumpHist rest trips

/-- Per-node backpropagation step; the score `tripDecay ^ trips` is added
only on success (a failed iteration adds score 0, i.e. nothing). -/
def backpropNode (d : NodeData) (success : Bool) (trips : ℕ) : NodeData :=
  if success then
    { d with
      visits := d.visits + 1
      wins := d.wins + tripDecay ^ trips
      successes := d.successes + 1
      terminalTrips := bumpHist d.terminalTrips trips }
  else
    { d with visits := d.visits + 1 }

/-- Result of the rollout loop (src/pomcts/algorithm.ts lines 126-154):
the rolled-out flag, the trip count, the simulated mass used, the final
sampled-world remaining mass, and the scratch belief `simTotalBelief`. -/
structure RolloutResult where
  rolledOut : Bool
  trips : ℕ
  simMassUsed : ℚ
  remaining : ℚ
  simBelief : Belief
deriving DecidableEq, Repr

/-- The rollout action heuristic: the source filters the catalog by
`remaining > out`, sorts the survivors descending by `out + back` with a
stable sort and takes the head; modelled as the first action attaining the
maximal `out + back` among the survivors in catalog order. -/
def chooseRolloutAction (remaining : ℚ) : Option Action :=
  match ACTIONS.filter fun ka => decide (remaining > ka.2.out) with
  | [] => none
  | ka :: rest =>
      some (rest.foldl
        (fun best x =>
          if best.2.out + best.2.back < x.2.out + x.2.back then x else best)
        ka).2

/-- The rollout (simulation) loop body (src/pomcts/algorithm.ts lines
132-153).  `fuel` stands for `maxDepth - trips`, so fuel 0 is exactly the
`trips < maxDepth` loop bound.  The call of `updateTotalBelief` whose
result the source discards is kept (bound to `_scratch` and dropped), and
the scratch belief is threaded through unchanged, exactly as the mutation-
free source leaves `simTotalBelief` untouched. -/
def rolloutLoop (trueMass : ℚ) :
    ℕ → ℕ → ℚ → ℚ → Belief → RolloutResult
  | 0, trips, simMassUsed, remaining, simTotalBelief =>
      ⟨false, trips, simMassUsed, remaining, simTotalBelief⟩
  | fuel + 1, trips, simMassUsed, remaining, simTotalBelief =>
      if remaining ≤ 0 then ⟨false, trips, simMassUsed, remaining, simTotalBelief⟩
      else
        match chooseRolloutAction remaining with
        | none => ⟨true, trips, simMassUsed, remaining, simTotalBelief⟩
        | some act =>
            let simMassUsed' := simMassUsed + act.out + act.back
            let remaining' := trueMass - simMassUsed'
            let observation := computeObservation trueMass simMassUsed'
            let _scratch := updateTotalBelief simTotalBelief simMassUsed' observation
            rolloutLoop trueMass fuel (trips + 1) simMassUsed' remaining' simTotalBelief

/-- The simulation phase run at the node where the selection walk stopped
(src/pomcts/algorithm.ts lines 126-158): if the iteration rolled out or the
sampled world already collapsed the rollout is skipped; otherwise the
rollout loop runs from `trips = depth`.  Returns (success, trips) where
`success = ¬rolledOut ∧ remaining ≤ 0`. -/
def simulateFrom (trueMass : ℚ) (d : NodeData)
    (currentMassUsed remaining : ℚ) (rolledOut : Bool) : Bool × ℕ :=
  if rolledOut || decide (remaining ≤ 0) then
    (!rolledOut && decide (remaining ≤ 0), d.depth)
  else
    let r := rolloutLoop trueMass (maxDepth - d.depth) d.depth currentMassUsed
      remaining d.totalBelief
    (!r.rolledOut && decide (r.remaining ≤ 0), r.trips)

/-- Result of one iteration's walk over a subtree: the rebuilt subtree with
backpropagated statistics, and the iteration's success flag and trip count. -/
structure StepResult where
  tree : PTree
  success : Bool
  trips : ℕ

/-- End the selection walk at this node: run the simulation phase and
backpropagate into this node's statistics. -/
def stopAt (trueMass : ℚ) (t : PTree) (currentMassUsed remaining : ℚ)
    (rolledOut : Bool) : StepResult :=
  match t with
  | .node d ch =>
      let sr := simulateFrom trueMass d currentMassUsed remaining rolledOut
      ⟨.node (backpropNode d sr.1 sr.2) ch, sr.1, sr.2⟩

/-- The expansion scan (src/pomcts/algorithm.ts lines 50-64): the first
valid action, in catalog order, whose outbound survives the sampled world
and whose (action, observation) pair has no child yet. -/
def findExpansion (trueMass currentMassUsed remaining : ℚ)
    (children : List ((String × Observation) × PTree)) :
    List (String × Action) → Option (String × Action)
  | [] => none
  | (key, act) :: rest =>
      if remaining ≤ act.out then
        findExpansion trueMass currentMassUsed remaining children rest
      else
        match getChild children key
            (computeObservation trueMass (currentMassUsed + act.out + act.back)) with
        | some _ => findExpansion trueMass currentMassUsed remaining children rest
        | none => some (key, act)

/-- The action selection of one loop round (src/pomcts/algorithm.ts lines
44-85): first look for an unexplored (action, observation) pair; failing
that, select among the actions whose outbound survives (`remaining > out`)
— the source takes the UCB1 argmax there, abstracted here by the
index-choosing function `sel` (an out-of-range index models the
`!selectedAction` fallthrough that sets `rolledOut`).  The returned flag is
`needsExpansion`. -/
def selectedPair (sel : PTree → List (String × Action) → ℕ) (trueMass : ℚ)
    (t : PTree) (validActions : List (String × Action))
    (currentMassUsed remaining : ℚ) : Option (String × Action × Bool) :=
  match findExpansion trueMass currentMassUsed remaining (childrenOf t)
      validActions with
  | some ka => some (ka.1, ka.2, true)
  | none =>
      let candidates := validActions.filter fun ka => decide (remaining > ka.2.out)
      match candidates[sel t candidates]? with
      | some ka => some (ka.1, ka.2, false)
      | none => none

/-- The selection + expansion walk of one iteration (src/pomcts/algorithm.ts
lines 39-124) followed by simulation and backpropagation along the walked
path.  `fuel` bounds the walk depth; every actual execution is reproduced
by any sufficiently large fuel (fuel exhaustion stops the walk like the
no-valid-action break). -/
def descendLoop (sel : PTree → List (String × Action) → ℕ) (trueMass : ℚ) :
    ℕ → PTree → ℚ → ℚ → StepResult
  | 0, t, currentMassUsed, remaining =>
      stopAt trueMass t currentMassUsed remaining false
  | fuel + 1, t, currentMassUsed, remaining =>
      match t with
      | .node d ch =>
          let validActions := getValidActions d.totalBelief d.massUsed
          if isTerminal d.totalBelief d.massUsed || validActions.isEmpty then
            stopAt trueMass (.node d ch) currentMassUsed remaining false
          else
            match selectedPair sel trueMass (.node d ch) validActions
                currentMassUsed remaining with
            | none => stopAt trueMass (.node d ch) currentMassUsed remaining true
            | some (key, act, needsExpansion) =>
                if remaining ≤ act.out then
                  stopAt trueMass (.node d ch) currentMassUsed remaining true
                else
                  let newMassUsed := currentMassUsed + act.out + act.back
                  let remaining' := trueMass - newMassUsed
                  let observation := computeObservation trueMass newMassUsed
                  let child :=
                    match getChild ch key observation with
                    | some c => c
                    | none => PTree.node (freshChildData d newMassUsed key observation) []
                  if decide (remaining' ≤ 0) || needsExpansion then
                    let r := stopAt trueMass child newMassUsed remaining' false
                    ⟨.node (backpropNode d r.success r.trips)
                        (setChild ch key observation r.tree), r.success, r.trips⟩
                  else
                    let r := descendLoop sel trueMass fuel child newMassUsed remaining'
                    ⟨.node (backpropNode d r.success r.trips)
                        (setChild ch key observation r.tree), r.success, r.trips⟩

/-- The root node built by `runPOMCTS` (src/pomcts/algorithm.ts lines 25-26). -/
def mkRootData (startMin startMax initialMassUsed : ℚ) : NodeData where
  totalBelief := ⟨startMin, startMax⟩
  massUsed := initialMassUsed
  incomingActionKey := none
  incomingAction := none
  incomingObservation := none
  visits := 0
  wins := 0
  successes := 0
  depth := 0
  terminalTrips := []

/-- `runPOMCTS` (src/pomcts/algorithm.ts).  One entry of `rands` (a sample
of `Math.random()` in [0, 1]) drives one iteration:
`trueMass = startMin + r * (startMax - startMin)`, then the walk, the
rollout and backpropagation. -/
def runPOMCTS (sel : PTree → List (String × Action) → ℕ) (fuel : ℕ)
    (startMin startMax initialMassUsed : ℚ) (rands : List ℚ) : PTree :=
  rands.foldl
    (fun t r =>
      let trueMass := startMin + r * (startMax - startMin)
      (descendLoop sel trueMass fuel t initialMassUsed
        (trueMass - initialMassUsed)).tree)
    (PTree.node (mkRootData startMin startMax initialMassUsed) [])

/-- `ActionResult` (src/types.ts). -/
structure ActionResult where
  key : String
  act : Action
  visits : ℕ
  wins : ℚ
  successes : ℕ
  total : ℕ
  successRate : ℚ
  strategyScore : ℚ
  avgSteps : ℚ
  mass : ℚ
  guaranteedSafe : Bool
deriving DecidableEq, Repr, Inhabited

/-- Sum of `trips * count` over a terminal-trips histogram
(src/pomcts/results.ts lines 44-46). -/
def histTripSum : List (ℕ × ℕ) → ℕ
  | [] => 0
  | (t, c) :: rest => t * c + histTripSum rest

/-- Aggregation over the observation branches of one action key
(src/pomcts/results.ts lines 29-47): total visits, wins, successes,
trip-weighted total, and the `action` variable (overwritten per branch in
the source, so the last branch wins). -/
def aggregateStats : List ((String × Observation) × PTree) →
    ℕ × ℚ × ℕ × ℕ × Option Action
  | [] => (0, 0, 0, 0, none)
  | (_, c) :: rest =>
      let d := dataOf c
      let (v, w, s, tsum, actRest) := aggregateStats rest
      (d.visits + v, d.wins + w, d.successes + s,
       histTripSum d.terminalTrips + tsum,
       match rest with
       | [] => d.incomingAction
       | _ => actRest)

/-- The per-action result record built by `getMCTSActionResults`
(src/pomcts/results.ts lines 49-99), given the root's remaining belief and
the child entries under one action key. -/
def resultForKey (remainingBelief : Belief) (key : String)
    (edges : List ((String × Observation) × PTree)) : Option ActionResult :=
  let agg := aggregateStats edges
  let totalVisits := agg.1
  let totalWins := agg.2.1
  let totalSuccesses := agg.2.2.1
  let totalTrips := agg.2.2.2.1
  match agg.2.2.2.2 with
  | none => none
  | some action =>
      let observedAvgSteps : ℚ :=
        if 0 < totalSuccesses then (totalTrips : ℚ) / (totalSuccesses : ℚ) else 0
      let actionMass := action.out + action.back
      let avgSteps : ℚ :=
        if action.out < remainingBelief.max then
          let validRange := remainingBelief.max - action.out
          let oneTrip := min validRange (max 0 (actionMass - action.out))
          let pOneTrip := oneTrip / validRange
          if pOneTrip < 0.95 ∧ observedAvgSteps < 1.5 then
            pOneTrip * 1 + (1 - pOneTrip) * 2
          else observedAvgSteps
        else observedAvgSteps
      let beliefRange := remainingBelief.max - remainingBelief.min
      let pSafeOutbound : ℚ :=
        if 0 < beliefRange ∧ remainingBelief.min < action.out then
          max 0 (remainingBelief.max - action.out) / beliefRange
        else 1
      let observedSuccessRate : ℚ :=
        if 0 < totalVisits then (totalSuccesses : ℚ) / (totalVisits : ℚ) else 0
      let observedScore : ℚ :=
        if 0 < totalVisits then totalWins / (totalVisits : ℚ) else 0
      some
        { key := key
          act := action
          visits := totalVisits
          wins := totalWins
          successes := totalSuccesses
          total := totalVisits
          successRate := pSafeOutbound * observedSuccessRate
          strategyScore := pSafeOutbound * observedScore
          avgSteps := avgSteps
          mass := action.out + action.back
          guaranteedSafe := decide (remainingBelief.min > action.out) }

/-- Iteration over the action keys of the root's child index in
first-insertion order (`Object.keys(root.children)` in
src/pomcts/results.ts line 26), producing one result per key; `seen`
accumulates the keys already handled. -/
def extractResults (remainingBelief : Belief)
    (all : List ((String × Observation) × PTree)) :
    List ((String × Observation) × PTree) → List String → List ActionResult
  | [], _ => []
  | (ko, _) :: rest, seen =>
      if ko.1 ∈ seen then extractResults remainingBelief all rest seen
      else
        match resultForKey remainingBelief ko.1
            (all.filter fun e => decide (e.1.1 = ko.1)) with
        | some r => r :: extractResults remainingBelief all rest (ko.1 :: seen)
        | none => extractResults remainingBelief all rest (ko.1 :: seen)

/-- The final ranking order of `getMCTSActionResults` (src/pomcts/results.ts
lines 104-108): descending strategy score, ties broken by ascending
average steps. -/
def resultOrder (x y : ActionResult) : Prop :=
  y.strategyScore < x.strategyScore ∨
    (x.strategyScore = y.strategyScore ∧ x.avgSteps ≤ y.avgSteps)

instance : DecidableRel resultOrder := fun x y => by
  unfold resultOrder; infer_instance

/-- `getMCTSActionResults` (src/pomcts/results.ts): aggregate the root's
children per action key, build the result records, and sort them stably by
`resultOrder`. -/
def getMCTSActionResults (root : PTree) : List ActionResult :=
  match root with
  | .node d ch =>
      let remainingBelief := getRemainingBelief d.totalBelief d.massUsed
      (extractResults remainingBelief ch ch []).insertionSort resultOrder

/-- A concrete selection policy: always pick the first candidate.  The UCB1
branch of the source is only reached after every reachable
(action, observation) pair under the sampled world has a child, so a
one-iteration run never consults the policy and any policy reproduces the
source behavior there. -/
def sel0 : PTree → List (String × Action) → ℕ := fun _ _ => 0

/-- A one-iteration run on the inverted belief interval `[40, 30]`
(`startMin > startMax`) with `Math.random() = 1/2`, i.e. sampled true mass
35: the root is not terminal (remaining max = 30 > 0), `HIC_ENT_HOT` is
valid and unexplored, the round trip of 135.5 collapses the sampled world,
and the iteration is recorded as a success.  Used to refute C3. -/
def sampleRun : PTree := runPOMCTS sel0 10 40 30 0 [1/2]

/-- The top-ranked action result of `sampleRun` (its only one). -/
def r0 : ActionResult := (getMCTSActionResults sampleRun).headI

/-- The per-node statistics invariant of claim C2: `successes ≤ visits` and
`0 ≤ wins ≤ successes`. -/
def PStats (d : NodeData) : Prop :=
  d.successes ≤ d.visits ∧ 0 ≤ d.wins ∧ d.wins ≤ (d.successes : ℚ)

/-- Every node of the tree satisfies the statistics invariant. -/
inductive StatsOK : PTree → Prop where
  | node {d ch} (hd : PStats d)
      (hch : ∀ ko c, (ko, c) ∈ ch → StatsOK c) : StatsOK (.node d ch)

/-- The round-trip mass of the catalog action stored under a key (0 for a
key outside the catalog; every child edge of a reachable tree carries a
catalog key). -/
def edgeMass (key : String) : ℚ :=
  match lookupAction ACTIONS key with
  | some a => a.out + a.back
  | none => 0

/-- The strengthened structural invariant used to prove claim C7: along
every edge the child's belief interval is nested in the parent's, and the
child's stored `massUsed` is exactly the parent's plus the round-trip mass
of the edge's action. -/
inductive TreeOK : PTree → Prop where
  | node {d ch}
      (hcond : ∀ key observation c, ((key, observation), c) ∈ ch →
        d.totalBelief.min ≤ (dataOf c).totalBelief.min ∧
        (dataOf c).totalBelief.max ≤ d.totalBelief.max ∧
        (dataOf c).massUsed = d.massUsed + edgeMass key)
      (hrec : ∀ ko c, (ko, c) ∈ ch → TreeOK c) : TreeOK (.node d ch)

/-- Claim C7's property: along every edge of the tree the child's total
belief is at least as tight as the parent's and its `massUsed` is at least
the parent's. -/
inductive TreeTight : PTree → Prop where
  | node {d ch}
      (hcond : ∀ ko c, (ko, c) ∈ ch →
        d.totalBelief.min ≤ (dataOf c).totalBelief.min ∧
        (dataOf c).totalBelief.max ≤ d.totalBelief.max ∧
        d.massUsed ≤ (dataOf c).massUsed)
      (hrec : ∀ ko c, (ko, c) ∈ ch → TreeTight c) : TreeTight (.node d ch)

/-! ## Theorems -/

/-- Claim C10: whenever `trueMass - massUsed ≤ 0` — including the degenerate
input `trueMass = 0`, where the remaining-fraction computation divides zero
by zero — `computeObservation` returns `collapsed`: the collapsed branch is
tested before the fraction is consulted, so the division never influences
the result. -/
theorem C10_collapsed_before_fraction (trueMass massUsed : ℚ)
    (h : trueMass - massUsed ≤ 0) :
    computeObservation trueMass massUsed = .collapsed := by
  unfold computeObservation
  simp only [if_pos h]

/-- Witness for C10 at the degenerate input `trueMass = 0`,
`massUsed = 5`. -/
theorem C10_witness :
    (0 : ℚ) - 5 ≤ 0 ∧ computeObservation 0 5 = .collapsed :=
  ⟨by norm_num, C10_collapsed_before_fraction 0 5 (by norm_num)⟩

/-- Claim C4: for every belief `b` with `b.min ≤ b.max` and every
`mass_used u`, `updateTotalBelief` returns exactly the interval
`[max(b.min, 2u+1), b.max]` for `fresh`, `[max(b.min, u/0.9+1),
min(b.max, 2u)]` for `shrink`, `[b.min, min(b.max, u/0.9)]` for `crit`,
and `b` unchanged for `collapsed`. -/
theorem C4_update_total_belief_cases (b : Belief) (u : ℚ)
    (h : b.min ≤ b.max) :
    updateTotalBelief b u .fresh = ⟨max b.min (2 * u + 1), b.max⟩ ∧
    updateTotalBelief b u .shrink =
      ⟨max b.min (u / 0.9 + 1), min b.max (2 * u)⟩ ∧
    updateTotalBelief b u .crit = ⟨b.min, min b.max (u / 0.9)⟩ ∧
    updateTotalBelief b u .collapsed = b :=
  ⟨rfl, rfl, rfl, rfl⟩

/-- Witness for C4 at the belief `[1800, 2200]` and `mass_used = 500`. -/
theorem C4_witness :
    (1800 : ℚ) ≤ 2200 ∧
    updateTotalBelief ⟨1800, 2200⟩ 500 .fresh =
      ⟨max 1800 (2 * 500 + 1), 2200⟩ ∧
    updateTotalBelief ⟨1800, 2200⟩ 500 .shrink =
      ⟨max 1800 (500 / 0.9 + 1), min 2200 (2 * 500)⟩ ∧
    updateTotalBelief ⟨1800, 2200⟩ 500 .crit =
      ⟨1800, min 2200 (500 / 0.9)⟩ ∧
    updateTotalBelief ⟨1800, 2200⟩ 500 .collapsed = ⟨1800, 2200⟩ :=
  ⟨by norm_num, C4_update_total_belief_cases ⟨1800, 2200⟩ 500 (by norm_num)⟩

/-- Claim C8: `updateTotalBelief` is idempotent: applying it twice with the
same `mass_used` and observation gives the same belief as applying it
once. -/
theorem C8_update_total_belief_idempotent (b : Belief) (u : ℚ)
    (o : Observation) :
    updateTotalBelief (updateTotalBelief b u o) u o =
      updateTotalBelief b u o := by
  cases o <;>
    simp [updateTotalBelief, max_assoc, min_assoc]

/-- Claim C5: for positive true mass and nonnegative mass used,
`computeObservation` returns `collapsed` iff the remaining mass is ≤ 0,
otherwise `crit` iff the remaining fraction is ≤ 0.10, otherwise `shrink`
iff it is ≤ 0.50, and `fresh` beyond; together with the five concrete
evaluations the spec's S4 scenario demands. -/
theorem C5_observe_characterization (trueMass massUsed : ℚ)
    (h1 : 0 < trueMass) (h2 : 0 ≤ massUsed) :
    ((computeObservation trueMass massUsed = .collapsed ↔
        trueMass - massUsed ≤ 0) ∧
     (0 < trueMass - massUsed →
        ((computeObservation trueMass massUsed = .crit ↔
            (trueMass - massUsed) / trueMass ≤ 0.10) ∧
         (0.10 < (trueMass - massUsed) / trueMass →
            (computeObservation trueMass massUsed = .shrink ↔
              (trueMass - massUsed) / trueMass ≤ 0.50)) ∧
         (0.50 < (trueMass - massUsed) / trueMass →
            computeObservation trueMass massUsed = .fresh)))) ∧
    computeObservation 2000 500 = .fresh ∧
    computeObservation 2000 1200 = .shrink ∧
    computeObservation 2000 1850 = .crit ∧
    computeObservation 2000 2000 = .collapsed ∧
    computeObservation 2000 2100 = .collapsed := by
  refine ⟨⟨?_, ?_⟩, ?_, ?_, ?_, ?_, ?_⟩
  · simp only [computeObservation, critThreshold, shrinkThreshold]
    split_ifs with hc h3 h4 <;> simp_all <;> linarith
  · intro hrem
    simp only [computeObservation, critThreshold, shrinkThreshold]
    split_ifs with hc h3 h4 <;> simp_all <;> try linarith
  all_goals norm_num [computeObservation, critThreshold, shrinkThreshold]

/-- Witness for C5 at `trueMass = 2000`, `massUsed = 1200`. -/
theorem C5_witness :
    (0 : ℚ) < 2000 ∧ (0 : ℚ) ≤ 1200 ∧
    ((computeObservation 2000 1200 = .collapsed ↔ (2000 : ℚ) - 1200 ≤ 0) ∧
     (0 < (2000 : ℚ) - 1200 →
        ((computeObservation 2000 1200 = .crit ↔
            ((2000 : ℚ) - 1200) / 2000 ≤ 0.10) ∧
         (0.10 < ((2000 : ℚ) - 1200) / 2000 →
            (computeObservation 2000 1200 = .shrink ↔
              ((2000 : ℚ) - 1200) / 2000 ≤ 0.50)) ∧
         (0.50 < ((2000 : ℚ) - 1200) / 2000 →
            computeObservation 2000 1200 = .fresh)))) ∧
    computeObservation 2000 500 = .fresh ∧
    computeObservation 2000 1200 = .shrink ∧
    computeObservation 2000 1850 = .crit ∧
    computeObservation 2000 2000 = .collapsed ∧
    computeObservation 2000 2100 = .collapsed :=
  ⟨by norm_num, by norm_num,
    C5_observe_characterization 2000 1200 (by norm_num) (by norm_num)⟩

/-- Claim C9: the rollout's scratch belief is write-only.
`updateTotalBelief` is a pure function — the rollout calls it and discards
the result — so (i) the scratch belief `simTotalBelief` still equals the
node's belief it was initialized from after any number of rollout steps,
and (ii) no component of the rollout outcome (rolled-out flag, trips, mass
used, remaining) depends on the scratch belief. -/
theorem C9_rollout_scratch_belief (trueMass : ℚ) (fuel trips : ℕ)
    (simMassUsed remaining : ℚ) (b b' : Belief) :
    (rolloutLoop trueMass fuel trips simMassUsed remaining b).simBelief = b ∧
    (rolloutLoop trueMass fuel trips simMassUsed remaining b).rolledOut =
      (rolloutLoop trueMass fuel trips simMassUsed remaining b').rolledOut ∧
    (rolloutLoop trueMass fuel trips simMassUsed remaining b).trips =
      (rolloutLoop trueMass fuel trips simMassUsed remaining b').trips ∧
    (rolloutLoop trueMass fuel trips simMassUsed remaining b).simMassUsed =
      (rolloutLoop trueMass fuel trips simMassUsed remaining b').simMassUsed ∧
    (rolloutLoop trueMass fuel trips simMassUsed remaining b).remaining =
      (rolloutLoop trueMass fuel trips simMassUsed remaining b').remaining := by
  induction fuel generalizing trips simMassUsed remaining b b' with
  | zero => simp [rolloutLoop]
  | succ fuel ih =>
      simp only [rolloutLoop]
      split_ifs with h
      · simp
      · cases chooseRolloutAction remaining with
        | none => simp
        | some act => exact ih _ _ _ _ _

/-- Claim C1 counterexample: at the fresh-hole node state (total belief
`[1800, 2200]`, mass used 0) the catalog entry `HIC_HOT` satisfies
`remaining.max > out` (2200 > 134) yet `getValidActions` does not return
it — the source applies the stricter trip-efficiency policy, not the
permissive one the claim states. -/
theorem C1_counterexample :
    ("HIC_HOT", (⟨134, 134, "HIC H/H", true⟩ : Action)) ∈ ACTIONS ∧
    (getRemainingBelief ⟨1800, 2200⟩ 0).max > 134 ∧
    ("HIC_HOT", (⟨134, 134, "HIC H/H", true⟩ : Action)) ∉
      getValidActions ⟨1800, 2200⟩ 0 := by
  refine ⟨by decide, by with_unfolding_all decide, by with_unfolding_all decide⟩

/-- Claim C1 as amended: `getValidActions` returns exactly the catalog
entries whose action satisfies `remaining.max > out` AND is either
trip-efficient (`out + back ≥ remaining.max / maxReasonableTrips`) or
guaranteed safe (`out < remaining.min`) while no catalog action is
simultaneously trip-efficient, guaranteed safe and applicable. -/
theorem C1_amended_valid_actions (totalBelief : Belief) (massUsed : ℚ)
    (key : String) (act : Action) :
    (key, act) ∈ getValidActions totalBelief massUsed ↔
      ((key, act) ∈ ACTIONS ∧
       act.out < (getRemainingBelief totalBelief massUsed).max ∧
       (act.out + act.back ≥
          (getRemainingBelief totalBelief massUsed).max / maxReasonableTrips ∨
        (act.out < (getRemainingBelief totalBelief massUsed).min ∧
         ∀ ka ∈ ACTIONS,
           ¬ (ka.2.out + ka.2.back ≥
                (getRemainingBelief totalBelief massUsed).max / maxReasonableTrips ∧
              ka.2.out < (getRemainingBelief totalBelief massUsed).min ∧
              ka.2.out < (getRemainingBelief totalBelief massUsed).max)))) := by
  simp only [getValidActions, List.mem_filter]
  by_cases hout : (getRemainingBelief totalBelief massUsed).max ≤ act.out
  · simp [hout, not_lt.mpr hout]
  · rw [if_neg hout]
    simp only [Bool.or_eq_true, Bool.and_eq_true, Bool.not_eq_true',
      decide_eq_true_eq, List.any_eq_false, ge_iff_le, gt_iff_lt]
    constructor
    · rintro ⟨hmem, hcond⟩
      refine ⟨hmem, not_le.mp hout, ?_⟩
      rcases hcond with h1 | ⟨h2, h3⟩
      · exact Or.inl h1
      · exact Or.inr ⟨h2, fun ka hka hx => h3 ka hka ⟨⟨hx.1, hx.2.1⟩, hx.2.2⟩⟩
    · rintro ⟨hmem, _hlt, hcond⟩
      refine ⟨hmem, ?_⟩
      rcases hcond with h1 | ⟨h2, h3⟩
      · exact Or.inl h1
      · exact Or.inr ⟨h2, fun ka hka hx => h3 ka hka ⟨hx.1.1, hx.1.2, hx.2⟩⟩

theorem backpropNode_totalBelief (d : NodeData) (s : Bool) (tr : ℕ) :
    (backpropNode d s tr).totalBelief = d.totalBelief := by
  unfold backpropNode; split <;> rfl

theorem backpropNode_massUsed (d : NodeData) (s : Bool) (tr : ℕ) :
    (backpropNode d s tr).massUsed = d.massUsed := by
  unfold backpropNode; split <;> rfl

theorem tripDecay_pow_nonneg (tr : ℕ) : 0 ≤ tripDecay ^ tr :=
  pow_nonneg (by norm_num [tripDecay]) tr

theorem tripDecay_pow_le_one (tr : ℕ) : tripDecay ^ tr ≤ 1 :=
  pow_le_one₀ (by norm_num [tripDecay]) (by norm_num [tripDecay])

theorem pstats_backprop {d : NodeData} (s : Bool) (tr : ℕ) (h : PStats d) :
    PStats (backpropNode d s tr) := by
  obtain ⟨h1, h2, h3⟩ := h
  unfold backpropNode
  split
  · refine ⟨Nat.succ_le_succ h1, ?_, ?_⟩
    · exact add_nonneg h2 (tripDecay_pow_nonneg tr)
    · push_cast
      have := tripDecay_pow_le_one tr
      linarith
  · exact ⟨Nat.le_succ_of_le h1, h2, h3⟩

theorem mem_setChild {x : (String × Observation) × PTree} :
    ∀ {ch : List ((String × Observation) × PTree)} {key observation c},
      x ∈ setChild ch key observation c → x = ((key, observation), c) ∨ x ∈ ch := by
  intro ch
  induction ch with
  | nil => intro key observation c h; simpa [setChild] using h
  | cons p rest ih =>
      intro key observation c h
      rw [setChild] at h
      split at h
      · rcases List.mem_cons.1 h with h1 | h1
        · exact Or.inl h1
        · exact Or.inr (List.mem_cons_of_mem _ h1)
      · rcases List.mem_cons.1 h with h1 | h1
        · exact Or.inr (h1 ▸ List.mem_cons_self _ _)
        · rcases ih h1 with h2 | h2
          · exact Or.inl h2
          · exact Or.inr (List.mem_cons_of_mem _ h2)

theorem getChild_mem :
    ∀ {ch : List ((String × Observation) × PTree)} {key observation c},
      getChild ch key observation = some c → ((key, observation), c) ∈ ch := by
  intro ch
  induction ch with
  | nil => intro key observation c h; simp [getChild] at h
  | cons p rest ih =>
      intro key observation c h
      rcases p with ⟨ko, c0⟩
      rw [getChild] at h
      split at h
      · rename_i hko
        injection h with hc
        subst hc
        rw [← hko]
        exact List.mem_cons_self _ _
      · exact List.mem_cons_of_mem _ (ih h)

theorem statsOK_stopAt {t : PTree} (tm u rem : ℚ) (ro : Bool)
    (h : StatsOK t) : StatsOK (stopAt tm t u rem ro).tree := by
  cases t with
  | node d ch =>
      cases h with
      | node hd hch => exact .node (pstats_backprop _ _ hd) hch

theorem statsOK_fresh (d : NodeData) (newMassUsed : ℚ) (key : String)
    (observation : Observation) :
    StatsOK (.node (freshChildData d newMassUsed key observation) []) := by
  refine .node ⟨?_, ?_, ?_⟩ ?_ <;> simp [freshChildData]

theorem statsOK_wrap {d : NodeData} {ch : List ((String × Observation) × PTree)}
    {key : String} {observation : Observation} {t' : PTree}
    (hd : PStats d) (hch : ∀ ko c, (ko, c) ∈ ch → StatsOK c)
    (ht' : StatsOK t') (s : Bool) (tr : ℕ) :
    StatsOK (.node (backpropNode d s tr) (setChild ch key observation t')) := by
  refine .node (pstats_backprop _ _ hd) fun ko c hmem => ?_
  rcases mem_setChild hmem with h1 | h1
  · injection h1 with hko hc
    subst hc
    exact ht'
  · exact hch ko c h1

theorem statsOK_descendLoop (sel : PTree → List (String × Action) → ℕ)
    (tm : ℚ) :
    ∀ (fuel : ℕ) (t : PTree) (u rem : ℚ), StatsOK t →
      StatsOK (descendLoop sel tm fuel t u rem).tree := by
  intro fuel
  induction fuel with
  | zero => intro t u rem h; exact statsOK_stopAt tm u rem false h
  | succ fuel ih =>
      intro t u rem h
      cases t with
      | node d ch =>
          rw [descendLoop]
          cases h with
          | node hd hch =>
              split
              · exact statsOK_stopAt tm u rem false (.node hd hch)
              · split
                · exact statsOK_stopAt tm u rem true (.node hd hch)
                · rename_i x key act needsExpansion heqSel
                  split
                  · exact statsOK_stopAt tm u rem true (.node hd hch)
                  · dsimp only
                    have hchild : StatsOK
                        (match getChild ch key (computeObservation tm (u + act.out + act.back)) with
                         | some c => c
                         | none =>
                             PTree.node
                               (freshChildData d (u + act.out + act.back) key
                                 (computeObservation tm (u + act.out + act.back))) []) := by
                      split
                      · rename_i c hc
                        exact hch _ _ (getChild_mem hc)
                      · exact statsOK_fresh _ _ _ _
                    split
                    · exact statsOK_wrap hd hch (statsOK_stopAt _ _ _ _ hchild) _ _
                    · exact statsOK_wrap hd hch (ih _ _ _ hchild) _ _

/-- Claim C2 (proved for the repaired model, see the note on `NodeData`):
for every run of `runPOMCTS` — any bounds, initial mass, sample stream,
fuel and selection policy — every node `n` of the resulting tree satisfies
`n.successes ≤ n.visits` and `0 ≤ n.wins ≤ n.successes`, because each
per-success win contribution `tripDecay ^ trips` lies in `[0, 1]`.  In the
source as written this invariant cannot hold: `POMCTSNode` never declares
or initializes `successes`, so under JavaScript evaluation it is
`undefined` (and `NaN` after the first successful backpropagation); the
invariant is proved here with the evidently intended initialization
`successes = 0`. -/
theorem C2_stats_invariant (sel : PTree → List (String × Action) → ℕ)
    (fuel : ℕ) (startMin startMax initialMassUsed : ℚ) (rands : List ℚ) :
    StatsOK (runPOMCTS sel fuel startMin startMax initialMassUsed rands) := by
  unfold runPOMCTS
  have hroot : StatsOK
      (PTree.node (mkRootData startMin startMax initialMassUsed) []) := by
    refine .node ⟨?_, ?_, ?_⟩ fun ko c h => absurd h (List.not_mem_nil _)
    all_goals simp [mkRootData]
  generalize PTree.node (mkRootData startMin startMax initialMassUsed) [] = t at hroot
  induction rands generalizing t with
  | nil => exact hroot
  | cons r rest ihr =>
      exact ihr _ (statsOK_descendLoop sel _ fuel t initialMassUsed _ hroot)

theorem updateTotalBelief_tight (b : Belief) (u : ℚ) (o : Observation) :
    b.min ≤ (updateTotalBelief b u o).min ∧
    (updateTotalBelief b u o).max ≤ b.max := by
  cases o <;> simp [updateTotalBelief]

theorem lookupAction_of_mem {key : String} {act : Action}
    (h : (key, act) ∈ ACTIONS) : lookupAction ACTIONS key = some act := by
  fin_cases h <;> rfl

theorem lookupAction_mem :
    ∀ {l : List (String × Action)} {key : String} {a : Action},
      lookupAction l key = some a → ∃ k, (k, a) ∈ l := by
  intro l
  induction l with
  | nil => intro key a h; simp [lookupAction] at h
  | cons p rest ih =>
      intro key a h
      rcases p with ⟨k0, a0⟩
      rw [lookupAction] at h
      split at h
      · injection h with ha
        subst ha
        exact ⟨k0, List.mem_cons_self _ _⟩
      · obtain ⟨k, hk⟩ := ih h
        exact ⟨k, List.mem_cons_of_mem _ hk⟩

theorem catalog_mass_nonneg {ka : String × Action} (h : ka ∈ ACTIONS) :
    0 ≤ ka.2.out + ka.2.back := by
  fin_cases h <;> norm_num

theorem edgeMass_nonneg (key : String) : 0 ≤ edgeMass key := by
  unfold edgeMass
  split
  · rename_i a ha
    obtain ⟨k, hk⟩ := lookupAction_mem ha
    exact catalog_mass_nonneg hk
  · exact le_refl 0

theorem getValidActions_subset {totalBelief : Belief} {massUsed : ℚ}
    {ka : String × Action} (h : ka ∈ getValidActions totalBelief massUsed) :
    ka ∈ ACTIONS := by
  simp only [getValidActions] at h
  exact (List.mem_filter.1 h).1

theorem findExpansion_mem {tm u rem : ℚ}
    {ch : List ((String × Observation) × PTree)} :
    ∀ {va : List (String × Action)} {ka : String × Action},
      findExpansion tm u rem ch va = some ka → ka ∈ va := by
  intro va
  induction va with
  | nil => intro ka h; simp [findExpansion] at h
  | cons p rest ih =>
      intro ka h
      rcases p with ⟨key, act⟩
      rw [findExpansion] at h
      split at h
      · exact List.mem_cons_of_mem _ (ih h)
      · split at h
        · exact List.mem_cons_of_mem _ (ih h)
        · injection h with hka
          subst hka
          exact List.mem_cons_self _ _

theorem selectedPair_mem {sel : PTree → List (String × Action) → ℕ}
    {tm : ℚ} {t : PTree} {va : List (String × Action)} {u rem : ℚ}
    {key : String} {act : Action} {ne : Bool}
    (h : selectedPair sel tm t va u rem = some (key, act, ne)) :
    (key, act) ∈ va := by
  unfold selectedPair at h
  split at h
  · rename_i ka hka
    injection h with h1
    injection h1 with h2 h3
    injection h3 with h4 h5
    subst h2
    subst h4
    exact findExpansion_mem hka
  · dsimp only at h
    split at h
    · rename_i ka hka
      injection h with h1
      injection h1 with h2 h3
      injection h3 with h4 h5
      subst h2
      subst h4
      exact (List.mem_filter.1 (List.getElem?_mem hka)).1
    · exact absurd h (Option.noConfusion)

theorem stopAt_fields (tm : ℚ) (t : PTree) (u rem : ℚ) (ro : Bool) :
    (dataOf (stopAt tm t u rem ro).tree).totalBelief = (dataOf t).totalBelief ∧
    (dataOf (stopAt tm t u rem ro).tree).massUsed = (dataOf t).massUsed := by
  cases t with
  | node d ch =>
      exact ⟨backpropNode_totalBelief _ _ _, backpropNode_massUsed _ _ _⟩

theorem descendLoop_fields (sel : PTree → List (String × Action) → ℕ)
    (tm : ℚ) (fuel : ℕ) (t : PTree) (u rem : ℚ) :
    (dataOf (descendLoop sel tm fuel t u rem).tree).totalBelief =
      (dataOf t).totalBelief ∧
    (dataOf (descendLoop sel tm fuel t u rem).tree).massUsed =
      (dataOf t).massUsed := by
  cases fuel with
  | zero => exact stopAt_fields tm t u rem false
  | succ fuel =>
      cases t with
      | node d ch =>
          rw [descendLoop]
          split
          · exact stopAt_fields tm _ u rem false
          · split
            · exact stopAt_fields tm _ u rem true
            · split
              · exact stopAt_fields tm _ u rem true
              · dsimp only
                split
                · exact ⟨backpropNode_totalBelief _ _ _, backpropNode_massUsed _ _ _⟩
                · exact ⟨backpropNode_totalBelief _ _ _, backpropNode_massUsed _ _ _⟩

theorem treeOK_stopAt {t : PTree} (tm u rem : ℚ) (ro : Bool)
    (h : TreeOK t) : TreeOK (stopAt tm t u rem ro).tree := by
  cases t with
  | node d ch =>
      cases h with
      | node hcond hrec =>
          refine .node (fun key observation c hmem => ?_) hrec
          rw [backpropNode_totalBelief, backpropNode_massUsed]
          exact hcond key observation c hmem

theorem treeOK_wrap {d : NodeData} {ch : List ((String × Observation) × PTree)}
    {key : String} {observation : Observation} {t' : PTree}
    (hcond : ∀ key1 observation1 c, ((key1, observation1), c) ∈ ch →
      d.totalBelief.min ≤ (dataOf c).totalBelief.min ∧
      (dataOf c).totalBelief.max ≤ d.totalBelief.max ∧
      (dataOf c).massUsed = d.massUsed + edgeMass key1)
    (hrec : ∀ ko c, (ko, c) ∈ ch → TreeOK c)
    (ht1 : d.totalBelief.min ≤ (dataOf t').totalBelief.min)
    (ht2 : (dataOf t').totalBelief.max ≤ d.totalBelief.max)
    (ht3 : (dataOf t').massUsed = d.massUsed + edgeMass key)
    (htOK : TreeOK t') (s : Bool) (tr : ℕ) :
    TreeOK (.node (backpropNode d s tr) (setChild ch key observation t')) := by
  refine .node (fun key1 observation1 c hmem => ?_) (fun ko c hmem => ?_)
  · rw [backpropNode_totalBelief, backpropNode_massUsed]
    rcases mem_setChild hmem with h1 | h1
    · injection h1 with hko hc
      injection hko with hk ho
      subst hk
      subst hc
      exact ⟨ht1, ht2, ht3⟩
    · exact hcond key1 observation1 c h1
  · rcases mem_setChild hmem with h1 | h1
    · injection h1 with hko hc
      subst hc
      exact htOK
    · exact hrec ko c h1

theorem treeOK_descendLoop (sel : PTree → List (String × Action) → ℕ)
    (tm : ℚ) :
    ∀ (fuel : ℕ) (t : PTree) (u rem : ℚ), u = (dataOf t).massUsed → TreeOK t →
      TreeOK (descendLoop sel tm fuel t u rem).tree := by
  intro fuel
  induction fuel with
  | zero => intro t u rem hu h; exact treeOK_stopAt tm u rem false h
  | succ fuel ih =>
      intro t u rem hu h
      cases t with
      | node d ch =>
          rw [descendLoop]
          cases h with
          | node hcond hrec =>
              split
              · exact treeOK_stopAt tm u rem false (.node hcond hrec)
              · split
                · exact treeOK_stopAt tm u rem true (.node hcond hrec)
                · rename_i x key act needsExpansion heqSel
                  split
                  · exact treeOK_stopAt tm u rem true (.node hcond hrec)
                  · dsimp only
                    have hmemA : (key, act) ∈ ACTIONS :=
                      getValidActions_subset (selectedPair_mem heqSel)
                    have hedge : edgeMass key = act.out + act.back := by
                      unfold edgeMass
                      rw [lookupAction_of_mem hmemA]
                    have hdu : u = d.massUsed := hu
                    have hu' : u + act.out + act.back = d.massUsed + edgeMass key := by
                      rw [hedge, hdu, add_assoc]
                    rcases hcs : getChild ch key
                        (computeObservation tm (u + act.out + act.back)) with _ | c
                    · dsimp only
                      have hfresh :
                          TreeOK (PTree.node
                            (freshChildData d (u + act.out + act.back) key
                              (computeObservation tm (u + act.out + act.back))) []) :=
                        .node (fun k1 o1 c1 hm => absurd hm (List.not_mem_nil _))
                          (fun ko c1 hm => absurd hm (List.not_mem_nil _))
                      have h1 := updateTotalBelief_tight d.totalBelief
                        (u + act.out + act.back)
                        (computeObservation tm (u + act.out + act.back))
                      split
                      · obtain ⟨hf1, hf2⟩ := stopAt_fields tm
                          (PTree.node (freshChildData d (u + act.out + act.back) key
                            (computeObservation tm (u + act.out + act.back))) [])
                          (u + act.out + act.back) (tm - (u + act.out + act.back)) false
                        refine treeOK_wrap hcond hrec ?_ ?_ ?_
                          (treeOK_stopAt _ _ _ _ hfresh) _ _
                        · rw [hf1]; exact h1.1
                        · rw [hf1]; exact h1.2
                        · rw [hf2]; exact hu'
                      · obtain ⟨hf1, hf2⟩ := descendLoop_fields sel tm fuel
                          (PTree.node (freshChildData d (u + act.out + act.back) key
                            (computeObservation tm (u + act.out + act.back))) [])
                          (u + act.out + act.back) (tm - (u + act.out + act.back))
                        refine treeOK_wrap hcond hrec ?_ ?_ ?_
                          (ih (PTree.node (freshChildData d (u + act.out + act.back) key
                              (computeObservation tm (u + act.out + act.back))) [])
                            (u + act.out + act.back)
                            (tm - (u + act.out + act.back)) rfl hfresh) _ _
                        · rw [hf1]; exact h1.1
                        · rw [hf1]; exact h1.2
                        · rw [hf2]; exact hu'
                    · dsimp only
                      obtain ⟨he1, he2, he3⟩ :=
                        hcond key (computeObservation tm (u + act.out + act.back)) c
                          (getChild_mem hcs)
                      have hcu : u + act.out + act.back = (dataOf c).massUsed := by
                        rw [hu', he3]
                      have hcOK : TreeOK c :=
                        hrec _ _ (getChild_mem hcs)
                      split
                      · obtain ⟨hf1, hf2⟩ := stopAt_fields tm c
                          (u + act.out + act.back) (tm - (u + act.out + act.back)) false
                        refine treeOK_wrap hcond hrec ?_ ?_ ?_
                          (treeOK_stopAt _ _ _ _ hcOK) _ _
                        · rw [hf1]; exact he1
                        · rw [hf1]; exact he2
                        · rw [hf2]; exact he3
                      · obtain ⟨hf1, hf2⟩ := descendLoop_fields sel tm fuel c
                          (u + act.out + act.back) (tm - (u + act.out + act.back))
                        refine treeOK_wrap hcond hrec ?_ ?_ ?_
                          (ih c (u + act.out + act.back)
                            (tm - (u + act.out + act.back)) hcu hcOK) _ _
                        · rw [hf1]; exact he1
                        · rw [hf1]; exact he2
                        · rw [hf2]; exact he3

theorem treeOK_to_tight : ∀ {t : PTree}, TreeOK t → TreeTight t := by
  intro t h
  induction h with
  | node hcond hrec ih =>
      refine .node (fun ko c hmem => ?_) (fun ko c hmem => ih ko c hmem)
      rcases ko with ⟨key, observation⟩
      obtain ⟨h1, h2, h3⟩ := hcond key observation c hmem
      refine ⟨h1, h2, ?_⟩
      rw [h3]
      have h4 := edgeMass_nonneg key
      linarith

/-- Claim C7: in every tree built by `runPOMCTS` — any inputs, sample
stream, fuel and selection policy — every child node's total belief is at
least as tight as its parent's (`child.min ≥ parent.min` and
`child.max ≤ parent.max`), and `massUsed` is non-decreasing from parent to
child (each applied catalog action has `out ≥ 0` and `back ≥ 0`).
Consequently both monotonicity properties hold along every root-to-leaf
path. -/
theorem C7_belief_tightening (sel : PTree → List (String × Action) → ℕ)
    (fuel : ℕ) (startMin startMax initialMassUsed : ℚ) (rands : List ℚ) :
    TreeTight (runPOMCTS sel fuel startMin startMax initialMassUsed rands) := by
  unfold runPOMCTS
  have hroot : TreeOK (PTree.node (mkRootData startMin startMax initialMassUsed) []) ∧
      (dataOf (PTree.node (mkRootData startMin startMax initialMassUsed) [])).massUsed =
        initialMassUsed :=
    ⟨.node (fun k1 o1 c1 hm => absurd hm (List.not_mem_nil _))
      (fun ko c1 hm => absurd hm (List.not_mem_nil _)), rfl⟩
  refine treeOK_to_tight ?_
  generalize PTree.node (mkRootData startMin startMax initialMassUsed) [] = t at hroot
  induction rands generalizing t with
  | nil => exact hroot.1
  | cons r rest ihr =>
      refine ihr _ ⟨?_, ?_⟩
      · exact treeOK_descendLoop sel _ fuel t initialMassUsed _ hroot.2.symm hroot.1
      · rw [(descendLoop_fields sel _ fuel t initialMassUsed _).2, hroot.2]

theorem descendLoop_noexpand (sel : PTree → List (String × Action) → ℕ)
    (tm : ℚ) (fuel : ℕ) (t : PTree) (u rem : ℚ)
    (h : (isTerminal (dataOf t).totalBelief (dataOf t).massUsed ||
          (getValidActions (dataOf t).totalBelief (dataOf t).massUsed).isEmpty) =
        true) :
    childrenOf (descendLoop sel tm fuel t u rem).tree = childrenOf t := by
  cases fuel with
  | zero => cases t; rfl
  | succ fuel =>
      cases t with
      | node d ch =>
          have h' : (isTerminal d.totalBelief d.massUsed ||
              (getValidActions d.totalBelief d.massUsed).isEmpty) = true := h
          rw [descendLoop]
          simp only [h', if_true]
          rfl

theorem getValidActions_nil {b : Belief} {u : ℚ} (h : b.max - u ≤ 1.5) :
    getValidActions b u = [] := by
  have hmax : (getRemainingBelief b u).max ≤ 1.5 :=
    max_le (by norm_num) h
  simp only [getValidActions, List.filter_eq_nil_iff]
  intro ka hka
  fin_cases hka <;>
    · dsimp only
      rw [if_pos (le_trans hmax (by norm_num))]
      simp

theorem results_nil {t : PTree} (h : childrenOf t = []) :
    getMCTSActionResults t = [] := by
  cases t with
  | node d ch =>
      have hch : ch = [] := h
      subst hch
      rfl

/-- Claim C3 counterexample: the planner performs no input validation.  On
the invalid belief `total_min = 40 > total_max = 30` (`mass_used = 0`), a
single iteration with `Math.random() = 1/2` expands a child under the root,
so `getMCTSActionResults` returns a non-empty list — not the empty list the
claim requires for every invalid input and every iteration count. -/
theorem C3_counterexample :
    (30 : ℚ) < 40 ∧ getMCTSActionResults sampleRun ≠ [] := by
  refine ⟨by norm_num, fun he => ?_⟩
  have h : (getMCTSActionResults sampleRun).isEmpty = false := by
    with_unfolding_all rfl
  rw [he] at h
  exact Bool.noConfusion h

/-- Claim C3 as amended: the empty-result guarantee holds whenever
`total_max - mass_used ≤ 1.5` (the smallest catalog outbound mass): then no
catalog action is applicable at the root — `remaining.max > out` fails for
every entry — so `getValidActions` is empty, nothing is ever expanded, and
`getMCTSActionResults` returns `[]` for every iteration count, fuel bound
and selection policy.  This covers in particular every `total_max ≤ 0` with
`mass_used ≥ 0`.  The planner performs no input validation, and other
invalid inputs can produce non-empty results (see the counterexample). -/
theorem C3_amended_empty_results (sel : PTree → List (String × Action) → ℕ)
    (fuel : ℕ) (startMin startMax initialMassUsed : ℚ) (rands : List ℚ)
    (hsmall : startMax - initialMassUsed ≤ 1.5) :
    getMCTSActionResults
      (runPOMCTS sel fuel startMin startMax initialMassUsed rands) = [] := by
  unfold runPOMCTS
  have hnoexp : ∀ t : PTree, (dataOf t).totalBelief.max = startMax →
      (dataOf t).massUsed = initialMassUsed →
      (isTerminal (dataOf t).totalBelief (dataOf t).massUsed ||
        (getValidActions (dataOf t).totalBelief (dataOf t).massUsed).isEmpty) =
      true := by
    intro t h1 h2
    have h3 : getValidActions (dataOf t).totalBelief (dataOf t).massUsed = [] := by
      refine getValidActions_nil ?_
      rw [h1, h2]
      exact hsmall
    rw [h3]
    simp
  have hinv : ∀ (l : List ℚ) (t : PTree), childrenOf t = [] →
      (dataOf t).totalBelief.max = startMax →
      (dataOf t).massUsed = initialMassUsed →
      getMCTSActionResults
        (l.foldl (fun t r =>
          (descendLoop sel (startMin + r * (startMax - startMin)) fuel t
            initialMassUsed
            ((startMin + r * (startMax - startMin)) - initialMassUsed)).tree) t)
        = [] := by
    intro l
    induction l with
    | nil => intro t h1 h2 h3; exact results_nil h1
    | cons r rest ih =>
        intro t h1 h2 h3
        refine ih _ ?_ ?_ ?_
        · rw [descendLoop_noexpand sel _ fuel t _ _ (hnoexp t h2 h3)]
          exact h1
        · rw [(descendLoop_fields sel _ fuel t _ _).1, h2]
        · rw [(descendLoop_fields sel _ fuel t _ _).2, h3]

  exact hinv rands _ rfl rfl rfl

/-- Witness for the amended C3 at the invalid belief `[40, 1]`
(`total_min > total_max` with a positive `total_max`, `mass_used = 0`):
`1 - 0 ≤ 1.5`, so every run returns the empty result list. -/
theorem C3_amended_witness :
    (1 : ℚ) - 0 ≤ 1.5 ∧
    getMCTSActionResults (runPOMCTS sel0 5 40 1 0 [1/2]) = [] :=
  ⟨by norm_num,
   C3_amended_empty_results sel0 5 40 1 0 [1/2] (by norm_num)⟩

theorem mem_extractResults :
    ∀ {rb : Belief} {all rest : List ((String × Observation) × PTree)}
      {seen : List String} {r : ActionResult},
      r ∈ extractResults rb all rest seen →
      ∃ key edges, resultForKey rb key edges = some r := by
  intro rb all rest
  induction rest with
  | nil => intro seen r h; simp [extractResults] at h
  | cons e rest ih =>
      intro seen r h
      rcases e with ⟨ko, c⟩
      rw [extractResults] at h
      split at h
      · exact ih h
      · split at h
        · rename_i r0 hr0
          rcases List.mem_cons.1 h with h1 | h1
          · subst h1
            exact ⟨_, _, hr0⟩
          · exact ih h1
        · exact ih h

theorem resultForKey_safe {rb : Belief} {key : String}
    {edges : List ((String × Observation) × PTree)} {r : ActionResult}
    (h : resultForKey rb key edges = some r)
    (hsafe : r.guaranteedSafe = true) :
    r.successRate = (r.successes : ℚ) / (r.visits : ℚ) := by
  unfold resultForKey at h
  dsimp only at h
  split at h
  · exact absurd h Option.noConfusion
  · rename_i action haction
    injection h with hr
    subst hr
    dsimp only at hsafe ⊢
    rw [decide_eq_true_eq] at hsafe
    have hcond : ¬(0 < rb.max - rb.min ∧ rb.min < action.out) :=
      fun hc => absurd hc.2 (not_lt.mpr (le_of_lt hsafe))
    rw [if_neg hcond, one_mul]
    split_ifs with htv
    · rfl
    · have htv0 : (aggregateStats edges).1 = 0 := Nat.eq_zero_of_not_pos htv
      rw [htv0]
      simp

/-- Claim C6: for every result surfaced by `getMCTSActionResults`, if
`guaranteedSafe` is true (the root remaining belief has `min > act.out`),
then the surfaced `successRate` equals the observed success rate
`successes / visits` — the `p_safe_outbound` correction factor is exactly 1
for guaranteed-safe actions. -/
theorem C6_guaranteed_safe_success_rate (root : PTree) (r : ActionResult)
    (hmem : r ∈ getMCTSActionResults root)
    (hsafe : r.guaranteedSafe = true) :
    r.successRate = (r.successes : ℚ) / (r.visits : ℚ) := by
  cases root with
  | node d ch =>
      simp only [getMCTSActionResults] at hmem
      rw [(List.perm_insertionSort resultOrder _).mem_iff] at hmem
      obtain ⟨key, edges, hr⟩ := mem_extractResults hmem
      exact resultForKey_safe hr hsafe

/-- Witness for C6: the single result of the concrete run `sampleRun` is
guaranteed safe and its success rate is exactly `successes / visits`
(both are 1). -/
theorem C6_witness :
    r0 ∈ getMCTSActionResults sampleRun ∧ r0.guaranteedSafe = true ∧
    r0.successRate = (r0.successes : ℚ) / (r0.visits : ℚ) :=
  ⟨by with_unfolding_all decide, by with_unfolding_all decide,
   C6_guaranteed_safe_success_rate sampleRun r0
     (by with_unfolding_all decide) (by with_unfolding_all decide)⟩

end Wormhole
